import Mathlib

/-!
# MolOnSurf relaxation engine — formal model

The repository's notebook builds a Cu(100) slab with a C3H8 adsorbate, fixes
the bottom slab layer with `FixAtoms`, and relaxes the system with ASE's
`BFGS` optimizer (`opt.run(fmax=0.005, steps=100)`), recording a trajectory
that is later re-read with `TrajectoryReader` and exported frame-by-frame to
an xyz file.  The optimizer, the constraint projection and the trajectory
storage are library capabilities invoked by the notebook; their behaviour is
modelled here from the specification (state machine of §4.3, constraint
operations of §4.2, trajectory contract of §4.4/§6).  The xyz-export loop of
the last notebook cell is translated directly from the source.

Scalars are modelled as exact rationals (`ℚ`); the specification's
"maximum Euclidean norm" convergence statistic is represented inside the
loop by its square-free equivalent (comparing squared norms against the
squared threshold), and related to the real-valued Euclidean `fmax` of the
specification by an explicit bridge lemma.  A calculator that would return
non-finite energy or forces is modelled as returning `none`.
-/

namespace MolOnSurf

/-- A 3-dimensional vector of exact rational coordinates. -/
structure Vec3 where
  x : ℚ
  y : ℚ
  z : ℚ
deriving DecidableEq, Repr

namespace Vec3

/-- The zero vector, used to nullify forces on constrained atoms. -/
def zero : Vec3 := ⟨0, 0, 0⟩

/-- Componentwise sum, used to apply a displacement to a position. -/
def add (v w : Vec3) : Vec3 := ⟨v.x + w.x, v.y + w.y, v.z + w.z⟩

/-- Squared Euclidean norm of a vector. -/
def normSq (v : Vec3) : ℚ := v.x * v.x + v.y * v.y + v.z * v.z

theorem normSq_nonneg (v : Vec3) : 0 ≤ v.normSq := by
  have hx := mul_self_nonneg v.x
  have hy := mul_self_nonneg v.y
  have hz := mul_self_nonneg v.z
  unfold normSq
  linarith

@[simp] theorem normSq_zero : normSq zero = 0 := by
  simp [normSq, zero]

end Vec3

/-- Modelled from the spec (§3, AtomicConfiguration): ordered sequence of
atoms (species label, 3D position), a 3×3 cell matrix, three periodicity
flags, and the associated constraint set (`FixAtoms`-style list of fixed atom
indices, as built in the notebook).  The concrete ASE `Atoms` class is not
part of the repository's sources. -/
structure AtomicConfiguration where
  species : List String
  positions : List Vec3
  cell : Vec3 × Vec3 × Vec3
  pbc : Bool × Bool × Bool
  constraints : List ℕ
deriving DecidableEq, Repr

/-- Modelled from the spec (§3, ForceEnergyResult): energy scalar and one
force vector per atom, produced fresh by the Calculator on each query. -/
structure ForceEnergyResult where
  energy : ℚ
  forces : List Vec3
deriving DecidableEq, Repr

/-- Modelled from the spec (§4.1): the Calculator maps a configuration to
energy and per-atom forces; a non-finite or missing result (fatal
`CalculatorFailure`) is modelled as `none`. -/
def Calculator : Type := AtomicConfiguration → Option ForceEnergyResult

/-- Auxiliary recursion for `project_forces`, carrying the index of the
first force in the remaining list. -/
def projectForcesAux (fixed : List ℕ) (i : ℕ) : List Vec3 → List Vec3
  | [] => []
  | f :: fs => (if i ∈ fixed then Vec3.zero else f) :: projectForcesAux fixed (i + 1) fs

/-- Modelled from the spec (§4.2, ConstraintSet): `project_forces` zeroes the
force components of constrained atoms so the Optimizer never displaces them.
The concrete `ase.constraints.FixAtoms` class is not part of the
repository's sources. -/
def project_forces (fixed : List ℕ) (forces : List Vec3) : List Vec3 :=
  projectForcesAux fixed 0 forces

/-- Auxiliary recursion for `project_displacement`: positions of constrained
atoms are reset to their old value; a proposal missing for some atom leaves
that atom in place, so the output always has one position per atom. -/
def projectDispAux (fixed : List ℕ) (i : ℕ) : List Vec3 → List Vec3 → List Vec3
  | [], _ => []
  | o :: os, [] => o :: projectDispAux fixed (i + 1) os []
  | o :: os, p :: ps =>
      (if i ∈ fixed then o else p) :: projectDispAux fixed (i + 1) os ps

/-- Modelled from the spec (§4.2, ConstraintSet): `project_displacement`
enforces the fixed-atom invariant on proposed moves, guarding against
numerical drift that ignores projected forces. -/
def project_displacement (fixed : List ℕ) (oldPos proposed : List Vec3) : List Vec3 :=
  projectDispAux fixed 0 oldPos proposed

/-- Squared-norm form of the convergence statistic: the maximum squared
Euclidean norm over the per-atom force vectors (0 for an empty list).  The
loop compares this against the squared threshold, which is equivalent to
comparing the spec's Euclidean `fmax` against the threshold. -/
def fmaxSq (forces : List Vec3) : ℚ :=
  (forces.map Vec3.normSq).foldr max 0

/-- The spec's convergence statistic (§4.3 step 3): the maximum Euclidean
norm of any atom's force vector, as a real number. -/
noncomputable def fmaxSpec (forces : List Vec3) : ℝ :=
  (forces.map (fun f => Real.sqrt ((f.normSq : ℚ) : ℝ))).foldr max 0

/-- Modelled from the spec (§4.3): the three terminal states of the
optimizer's state machine. -/
inductive Status where
  | converged
  | stepLimitReached
  | failed
deriving DecidableEq, Repr

/-- Outcome of a relaxation run: terminal status, the recorded trajectory
(one snapshot per successful force evaluation, in append order), and the
final step counter. -/
structure RunResult where
  status : Status
  traj : List AtomicConfiguration
  steps : ℕ
deriving DecidableEq, Repr

/-- Modelled from the spec (§4.3 step 6 and §9): the quasi-Newton
displacement rule is the optimizer's private memory `σ` (Hessian
approximation and force/position history) together with a function that
proposes a per-atom displacement from the current positions and projected
forces, updating the memory; `none` models a non-finite proposed
displacement (fatal `NonFiniteDisplacement`).  The spec leaves the concrete
update policy to the implementer, so the loop is stated for every such
rule. -/
def StepRule (σ : Type) : Type :=
  σ → List Vec3 → List Vec3 → Option (List Vec3 × σ)

/-- Componentwise application of a displacement to a position list; an atom
with no displacement component stays in place, so the atom count is
preserved. -/
def addDisp : List Vec3 → List Vec3 → List Vec3
  | [], _ => []
  | p :: ps, [] => p :: addDisp ps []
  | p :: ps, d :: ds => p.add d :: addDisp ps ds

/-- One position update of the optimizer (§4.3 step 7): add the proposed
displacement, project the result through the constraint set, and store the
new positions; every other field of the configuration is left unchanged. -/
def applyMove (c : AtomicConfiguration) (d : List Vec3) : AtomicConfiguration :=
  { c with
    positions := project_displacement c.constraints c.positions (addDisp c.positions d) }

/-- Modelled from the spec (§4.3, STEPPING loop body).  Arguments: remaining
step budget `rem` (the step-limit test `step_counter ≥ max_steps` appears as
`rem = 0`, since `rem = max_steps - n` throughout a run), step counter `n`,
current configuration `c`, optimizer memory `h`, and the trajectory recorded
so far `t`.  Each iteration queries the Calculator (a `none` result is the
fatal `CalculatorFailure`), projects the forces, appends the current
configuration to the trajectory, tests convergence (`fmax ≤ threshold`,
compared in squared form), then the step budget, then asks the step rule for
a displacement and recurses on the moved configuration. -/
def loop {σ : Type} (calcF : Calculator) (rule : StepRule σ) (thr : ℚ) :
    ℕ → ℕ → AtomicConfiguration → σ → List AtomicConfiguration → RunResult
  | rem, n, c, h, t =>
    match calcF c with
    | none => ⟨.failed, t, n⟩
    | some r =>
      let pf := project_forces c.constraints r.forces
      let t' := t ++ [c]
      if fmaxSq pf ≤ thr * thr then ⟨.converged, t', n⟩
      else
        match rem with
        | 0 => ⟨.stepLimitReached, t', n⟩
        | rem' + 1 =>
          match rule h c.positions pf with
          | none => ⟨.failed, t', n⟩
          | some (d, h') => loop calcF rule thr rem' (n + 1) (applyMove c d) h' t'

/-- Modelled from the spec (§4.3 INIT and §4.5): a full relaxation run
starts with step counter 0, the full step budget, the injected optimizer
memory, and an empty trajectory. -/
def run {σ : Type} (calcF : Calculator) (rule : StepRule σ) (thr : ℚ)
    (maxSteps : ℕ) (cfg : AtomicConfiguration) (h₀ : σ) : RunResult :=
  loop calcF rule thr maxSteps 0 cfg h₀ []

/-! ## Basic lemmas about the constraint projections -/

theorem projectForcesAux_length (fixed : List ℕ) (i : ℕ) (fs : List Vec3) :
    (projectForcesAux fixed i fs).length = fs.length := by
  induction fs generalizing i with
  | nil => rfl
  | cons f fs ih => simp [projectForcesAux, ih]

theorem projectForcesAux_idem (fixed : List ℕ) (i : ℕ) (fs : List Vec3) :
    projectForcesAux fixed i (projectForcesAux fixed i fs) =
      projectForcesAux fixed i fs := by
  induction fs generalizing i with
  | nil => rfl
  | cons f fs ih =>
      by_cases hi : i ∈ fixed <;> simp [projectForcesAux, hi, ih]

theorem projectForcesAux_getElem? (fixed : List ℕ) (i j : ℕ) (fs : List Vec3)
    (hj : (i + j) ∈ fixed) :
    (projectForcesAux fixed i fs)[j]? = if j < fs.length then some Vec3.zero else none := by
  induction fs generalizing i j with
  | nil => simp [projectForcesAux]
  | cons f fs ih =>
      cases j with
      | zero =>
          have hi : i ∈ fixed := by simpa using hj
          simp [projectForcesAux, hi]
      | succ j' =>
          have hj' : (i + 1 + j') ∈ fixed := by
            have : i + 1 + j' = i + (j' + 1) := by omega
            rw [this]; exact hj
          simp [projectForcesAux, ih (i + 1) j' hj', Nat.succ_lt_succ_iff]

theorem projectDispAux_length (fixed : List ℕ) (i : ℕ) (os ps : List Vec3) :
    (projectDispAux fixed i os ps).length = os.length := by
  induction os generalizing i ps with
  | nil => cases ps <;> rfl
  | cons o os ih => cases ps <;> simp [projectDispAux, ih]

theorem projectDispAux_getElem?_fixed (fixed : List ℕ) (i j : ℕ) (os ps : List Vec3)
    (hj : (i + j) ∈ fixed) :
    (projectDispAux fixed i os ps)[j]? = os[j]? := by
  induction os generalizing i j ps with
  | nil => cases ps <;> rfl
  | cons o os ih =>
      cases ps with
      | nil =>
          cases j with
          | zero => simp [projectDispAux]
          | succ j' =>
              have hj' : (i + 1 + j') ∈ fixed := by
                have : i + 1 + j' = i + (j' + 1) := by omega
                rw [this]; exact hj
              simp [projectDispAux, ih (i + 1) j' [] hj']
      | cons p ps =>
          cases j with
          | zero =>
              have : i ∈ fixed := by simpa using hj
              simp [projectDispAux, this]
          | succ j' =>
              have hj' : (i + 1 + j') ∈ fixed := by
                have : i + 1 + j' = i + (j' + 1) := by omega
                rw [this]; exact hj
              simp [projectDispAux, ih (i + 1) j' ps hj']

theorem project_forces_length (fixed : List ℕ) (forces : List Vec3) :
    (project_forces fixed forces).length = forces.length :=
  projectForcesAux_length fixed 0 forces

theorem project_forces_getElem? (fixed : List ℕ) (i : ℕ) (forces : List Vec3)
    (hi : i ∈ fixed) :
    (project_forces fixed forces)[i]? =
      if i < forces.length then some Vec3.zero else none :=
  projectForcesAux_getElem? fixed 0 i forces (by simpa using hi)

theorem project_displacement_length (fixed : List ℕ) (os ps : List Vec3) :
    (project_displacement fixed os ps).length = os.length :=
  projectDispAux_length fixed 0 os ps

theorem project_displacement_getElem?_fixed (fixed : List ℕ) (i : ℕ) (os ps : List Vec3)
    (hi : i ∈ fixed) :
    (project_displacement fixed os ps)[i]? = os[i]? :=
  projectDispAux_getElem?_fixed fixed 0 i os ps (by simpa using hi)

/-! ## The convergence statistic -/

@[simp] theorem fmaxSq_nil : fmaxSq [] = 0 := rfl

@[simp] theorem fmaxSq_cons (f : Vec3) (fs : List Vec3) :
    fmaxSq (f :: fs) = max f.normSq (fmaxSq fs) := rfl

@[simp] theorem fmaxSpec_nil : fmaxSpec [] = 0 := rfl

@[simp] theorem fmaxSpec_cons (f : Vec3) (fs : List Vec3) :
    fmaxSpec (f :: fs) = max (Real.sqrt ((f.normSq : ℚ) : ℝ)) (fmaxSpec fs) := rfl

theorem fmaxSq_nonneg (fs : List Vec3) : 0 ≤ fmaxSq fs := by
  induction fs with
  | nil => exact le_refl 0
  | cons f fs ih => exact le_max_of_le_right ih

theorem fmaxSpec_nonneg (fs : List Vec3) : 0 ≤ fmaxSpec fs := by
  induction fs with
  | nil => exact le_refl 0
  | cons f fs ih => exact le_max_of_le_right ih

/-- Bridge between the spec's Euclidean convergence statistic and the
squared form used by the executable loop: for a nonnegative threshold the
two convergence tests agree. -/
theorem fmaxSpec_le_iff_fmaxSq_le (thr : ℚ) (hthr : 0 ≤ thr) (fs : List Vec3) :
    fmaxSpec fs ≤ (thr : ℝ) ↔ fmaxSq fs ≤ thr * thr := by
  induction fs with
  | nil =>
      simp only [fmaxSpec_nil, fmaxSq_nil]
      constructor
      · intro _; exact mul_nonneg hthr hthr
      · intro _; exact_mod_cast hthr
  | cons f fs ih =>
      simp only [fmaxSpec_cons, fmaxSq_cons, max_le_iff]
      have h1 : Real.sqrt ((f.normSq : ℚ) : ℝ) ≤ (thr : ℝ) ↔ f.normSq ≤ thr * thr := by
        rw [Real.sqrt_le_left (by exact_mod_cast hthr), sq, ← Rat.cast_mul, Rat.cast_le]
      exact and_congr h1 ih

theorem fmaxSq_eq_zero_of_all_zero (fs : List Vec3) (h : ∀ f ∈ fs, f = Vec3.zero) :
    fmaxSq fs = 0 := by
  induction fs with
  | nil => rfl
  | cons f fs ih =>
      have hf : f = Vec3.zero := h f (List.mem_cons_self f fs)
      have hfs : fmaxSq fs = 0 := ih fun g hg => h g (List.mem_cons_of_mem f hg)
      simp [hf, hfs]

theorem fmaxSpec_eq_zero_of_all_zero (fs : List Vec3) (h : ∀ f ∈ fs, f = Vec3.zero) :
    fmaxSpec fs = 0 := by
  induction fs with
  | nil => rfl
  | cons f fs ih =>
      have hf : f = Vec3.zero := h f (List.mem_cons_self f fs)
      have hfs : fmaxSpec fs = 0 := ih fun g hg => h g (List.mem_cons_of_mem f hg)
      simp [hf, hfs]

/-- If every atom is constrained (and the calculator yields one force per
atom), the projected force list is identically zero. -/
theorem projectForcesAux_all_fixed (fixed : List ℕ) (i : ℕ) (fs : List Vec3)
    (h : ∀ j < fs.length, (i + j) ∈ fixed) :
    ∀ g ∈ projectForcesAux fixed i fs, g = Vec3.zero := by
  induction fs generalizing i with
  | nil => intro g hg; simp [projectForcesAux] at hg
  | cons f fs ih =>
      intro g hg
      have hi : i ∈ fixed := by simpa using h 0 (Nat.succ_pos _)
      simp only [projectForcesAux, hi, if_pos] at hg
      rcases List.mem_cons.mp hg with hg | hg
      · exact hg
      · refine ih (i + 1) ?_ g hg
        intro j hj
        have : i + 1 + j = i + (j + 1) := by omega
        rw [this]
        exact h (j + 1) (Nat.succ_lt_succ hj)

/-! ## Structural lemmas about the optimizer loop -/

theorem loop_steps_ge {σ : Type} (calcF : Calculator) (rule : StepRule σ) (thr : ℚ) :
    ∀ (rem n : ℕ) (c : AtomicConfiguration) (h : σ) (t : List AtomicConfiguration),
      n ≤ (loop calcF rule thr rem n c h t).steps := by
  intro rem
  induction rem with
  | zero =>
      intro n c h t
      rw [loop]
      cases calcF c with
      | none => exact Nat.le_refl n
      | some r =>
          dsimp only
          split
          · exact Nat.le_refl n
          · exact Nat.le_refl n
  | succ rem' ih =>
      intro n c h t
      rw [loop]
      cases calcF c with
      | none => exact Nat.le_refl n
      | some r =>
          dsimp only
          split
          · exact Nat.le_refl n
          · cases hr : rule h c.positions (project_forces c.constraints r.forces) with
            | none => exact Nat.le_refl n
            | some dh =>
                exact Nat.le_trans (Nat.le_succ n)
                  (ih (n + 1) (applyMove c dh.1) dh.2 (t ++ [c]))

/-- Every snapshot recorded by the loop satisfies any property `P` that
holds of the accumulated trajectory and the current configuration and is
preserved by `applyMove`. -/
theorem loop_traj_inv {σ : Type} (calcF : Calculator) (rule : StepRule σ) (thr : ℚ)
    (P : AtomicConfiguration → Prop)
    (hstep : ∀ c d, P c → P (applyMove c d)) :
    ∀ (rem n : ℕ) (c : AtomicConfiguration) (h : σ) (t : List AtomicConfiguration),
      (∀ s ∈ t, P s) → P c →
        ∀ s ∈ (loop calcF rule thr rem n c h t).traj, P s := by
  intro rem
  induction rem with
  | zero =>
      intro n c h t ht hc s hs
      rw [loop] at hs
      cases hcalc : calcF c with
      | none =>
          rw [hcalc] at hs
          exact ht s hs
      | some r =>
          rw [hcalc] at hs
          dsimp only at hs
          split at hs <;>
            (rcases List.mem_append.mp hs with hmem | hmem
             · exact ht s hmem
             · rw [List.mem_singleton.mp hmem]; exact hc)
  | succ rem' ih =>
      intro n c h t ht hc s hs
      rw [loop] at hs
      cases hcalc : calcF c with
      | none =>
          rw [hcalc] at hs
          exact ht s hs
      | some r =>
          rw [hcalc] at hs
          dsimp only at hs
          split at hs
          · rcases List.mem_append.mp hs with hmem | hmem
            · exact ht s hmem
            · rw [List.mem_singleton.mp hmem]; exact hc
          · cases hr : rule h c.positions (project_forces c.constraints r.forces) with
            | none =>
                rw [hr] at hs
                dsimp only at hs
                rcases List.mem_append.mp hs with hmem | hmem
                · exact ht s hmem
                · rw [List.mem_singleton.mp hmem]; exact hc
            | some dh =>
                rw [hr] at hs
                dsimp only at hs
                refine ih (n + 1) (applyMove c dh.1) dh.2 (t ++ [c]) ?_ ?_ s hs
                · intro s' hs'
                  rcases List.mem_append.mp hs' with hmem | hmem
                  · exact ht s' hmem
                  · rw [List.mem_singleton.mp hmem]; exact hc
                · exact hstep c dh.1 hc

/-! ## Frame behaviour of a single move -/

theorem applyMove_species (c : AtomicConfiguration) (d : List Vec3) :
    (applyMove c d).species = c.species := rfl

theorem applyMove_cell (c : AtomicConfiguration) (d : List Vec3) :
    (applyMove c d).cell = c.cell := rfl

theorem applyMove_pbc (c : AtomicConfiguration) (d : List Vec3) :
    (applyMove c d).pbc = c.pbc := rfl

theorem applyMove_constraints (c : AtomicConfiguration) (d : List Vec3) :
    (applyMove c d).constraints = c.constraints := rfl

theorem applyMove_positions_length (c : AtomicConfiguration) (d : List Vec3) :
    (applyMove c d).positions.length = c.positions.length :=
  project_displacement_length c.constraints c.positions (addDisp c.positions d)

theorem applyMove_positions_fixed (c : AtomicConfiguration) (d : List Vec3)
    (i : ℕ) (hi : i ∈ c.constraints) :
    (applyMove c d).positions[i]? = c.positions[i]? :=
  project_displacement_getElem?_fixed c.constraints i c.positions
    (addDisp c.positions d) hi

/-! ## Single loop iterations and reachability of intermediate states

`next?` performs exactly one iteration of the `loop` body, returning the
successor state when the loop would recurse and `none` when it would stop;
`iter` chains `k` such iterations.  `iter k` on the initial state therefore
expresses "the run reaches step `k` in this state". -/

/-- The full state of the optimizer loop between iterations. -/
structure LoopState (σ : Type) where
  rem : ℕ
  n : ℕ
  config : AtomicConfiguration
  hist : σ
  traj : List AtomicConfiguration

/-- One iteration of the loop body, as a state transformer: `some s'` when
the loop recurses into state `s'`, `none` when this iteration stops in a
terminal status. -/
def next? {σ : Type} (calcF : Calculator) (rule : StepRule σ) (thr : ℚ)
    (s : LoopState σ) : Option (LoopState σ) :=
  match calcF s.config with
  | none => none
  | some r =>
    let pf := project_forces s.config.constraints r.forces
    if fmaxSq pf ≤ thr * thr then none
    else
      match s.rem with
      | 0 => none
      | rem' + 1 =>
        match rule s.hist s.config.positions pf with
        | none => none
        | some (d, h') =>
            some ⟨rem', s.n + 1, applyMove s.config d, h', s.traj ++ [s.config]⟩

/-- `iter k` runs `k` loop iterations, failing if the loop stops earlier. -/
def iter {σ : Type} (calcF : Calculator) (rule : StepRule σ) (thr : ℚ) :
    ℕ → LoopState σ → Option (LoopState σ)
  | 0, s => some s
  | k + 1, s =>
    match next? calcF rule thr s with
    | none => none
    | some s' => iter calcF rule thr k s'

/-- The loop applied to a bundled state. -/
def loopAt {σ : Type} (calcF : Calculator) (rule : StepRule σ) (thr : ℚ)
    (s : LoopState σ) : RunResult :=
  loop calcF rule thr s.rem s.n s.config s.hist s.traj

theorem loopAt_of_next? {σ : Type} (calcF : Calculator) (rule : StepRule σ) (thr : ℚ)
    (s s' : LoopState σ) (h : next? calcF rule thr s = some s') :
    loopAt calcF rule thr s = loopAt calcF rule thr s' := by
  unfold next? at h
  cases hcalc : calcF s.config with
  | none => rw [hcalc] at h; exact absurd h (by simp)
  | some r =>
      rw [hcalc] at h
      dsimp only at h
      by_cases hconv : fmaxSq (project_forces s.config.constraints r.forces) ≤ thr * thr
      · rw [if_pos hconv] at h; exact absurd h (by simp)
      · rw [if_neg hconv] at h
        cases hrem : s.rem with
        | zero => rw [hrem] at h; exact absurd h (by simp)
        | succ rem' =>
            rw [hrem] at h
            dsimp only at h
            cases hr : rule s.hist s.config.positions
                (project_forces s.config.constraints r.forces) with
            | none => rw [hr] at h; exact absurd h (by simp)
            | some dh =>
                rw [hr] at h
                cases dh with
                | mk d h' =>
                    dsimp only at h
                    have hs' : s' = ⟨rem', s.n + 1, applyMove s.config d, h',
                        s.traj ++ [s.config]⟩ := by
                      exact (Option.some.injEq _ _).mp h.symm |>.symm ▸ rfl
                    subst hs'
                    unfold loopAt
                    rw [hrem]
                    rw [loop]
                    rw [hcalc]
                    dsimp only
                    rw [if_neg hconv, hr]

theorem iter_loopAt {σ : Type} (calcF : Calculator) (rule : StepRule σ) (thr : ℚ) :
    ∀ (k : ℕ) (s s' : LoopState σ), iter calcF rule thr k s = some s' →
      loopAt calcF rule thr s = loopAt calcF rule thr s' := by
  intro k
  induction k with
  | zero =>
      intro s s' h
      cases (Option.some.injEq _ _).mp h
      rfl
  | succ k ih =>
      intro s s' h
      unfold iter at h
      cases hn : next? calcF rule thr s with
      | none => rw [hn] at h; exact absurd h (by simp)
      | some s₁ =>
          rw [hn] at h
          exact (loopAt_of_next? calcF rule thr s s₁ hn).trans (ih s₁ s' h)

theorem next?_counter {σ : Type} (calcF : Calculator) (rule : StepRule σ) (thr : ℚ)
    (s s' : LoopState σ) (h : next? calcF rule thr s = some s') :
    s'.n = s.n + 1 ∧ s'.traj.length = s.traj.length + 1 := by
  unfold next? at h
  cases hcalc : calcF s.config with
  | none => rw [hcalc] at h; exact absurd h (by simp)
  | some r =>
      rw [hcalc] at h
      dsimp only at h
      split at h
      · exact absurd h (by simp)
      · cases hrem : s.rem with
        | zero => rw [hrem] at h; exact absurd h (by simp)
        | succ rem' =>
            rw [hrem] at h
            dsimp only at h
            cases hr : rule s.hist s.config.positions
                (project_forces s.config.constraints r.forces) with
            | none => rw [hr] at h; exact absurd h (by simp)
            | some dh =>
                rw [hr] at h
                cases dh with
                | mk d h' =>
                    dsimp only at h
                    cases (Option.some.injEq _ _).mp h
                    simp

theorem iter_counter {σ : Type} (calcF : Calculator) (rule : StepRule σ) (thr : ℚ) :
    ∀ (k : ℕ) (s s' : LoopState σ), iter calcF rule thr k s = some s' →
      s'.n = s.n + k ∧ s'.traj.length = s.traj.length + k := by
  intro k
  induction k with
  | zero =>
      intro s s' h
      cases (Option.some.injEq _ _).mp h
      exact ⟨rfl, rfl⟩
  | succ k ih =>
      intro s s' h
      unfold iter at h
      cases hn : next? calcF rule thr s with
      | none => rw [hn] at h; exact absurd h (by simp)
      | some s₁ =>
          rw [hn] at h
          have h1 := next?_counter calcF rule thr s s₁ hn
          have h2 := ih s₁ s' h
          omega

/-! ## Trajectory persistence and the xyz export -/

/-- Modelled from the spec (§4.4 TrajectoryRecorder, §6 trajectory file
format): the durable store is an ordered sequence of lines; each snapshot
becomes one frame, a header line carrying the atom count followed by one
line per atom with its species label and position.  Only this logical
sequence contract is specified — the concrete ASE `.traj`/xyz byte layouts
are external-tool concerns. -/
inductive FileLine where
  | header : ℕ → FileLine
  | atomLine : String → Vec3 → FileLine
deriving DecidableEq, Repr

/-- The per-atom content of one stored frame: species label and position,
in atom order. -/
def frameOf (c : AtomicConfiguration) : List (String × Vec3) :=
  c.species.zip c.positions

/-- Encode one snapshot as a stored frame. -/
def encodeFrame (c : AtomicConfiguration) : List FileLine :=
  .header c.positions.length :: (frameOf c).map fun sp => .atomLine sp.1 sp.2

/-- Modelled from the spec (§4.4): persisting a whole trajectory appends its
frames in order, never reordered, never deduplicated. -/
def writeTraj (traj : List AtomicConfiguration) : List FileLine :=
  (traj.map encodeFrame).flatten

/-- Single-pass reader: frames are accumulated in reverse (and reversed
back at the end); a header starts a new frame, an atom line extends the
current one (stray atom lines before any header are skipped). -/
def readGo : List FileLine → List (List (String × Vec3)) → List (List (String × Vec3))
  | [], acc => (acc.map List.reverse).reverse
  | .header _ :: rest, acc => readGo rest ([] :: acc)
  | .atomLine sp p :: rest, acc =>
      match acc with
      | [] => readGo rest []
      | f :: fs => readGo rest (((sp, p) :: f) :: fs)

/-- Modelled from the spec (§4.4 `read_all`): reconstruct the ordered
sequence of stored frames.  The concrete `ase.io.trajectory.TrajectoryReader`
is not part of the repository's sources. -/
def read_all (ls : List FileLine) : List (List (String × Vec3)) :=
  readGo ls []

theorem readGo_atomLines (q : List (String × Vec3)) :
    ∀ (rest : List FileLine) (f : List (String × Vec3))
      (fs : List (List (String × Vec3))),
      readGo ((q.map fun sp => FileLine.atomLine sp.1 sp.2) ++ rest) (f :: fs) =
        readGo rest ((q.reverse ++ f) :: fs) := by
  induction q with
  | nil => intro rest f fs; simp [readGo]
  | cons a q ih =>
      intro rest f fs
      simp only [List.map_cons, List.cons_append, readGo, List.append_eq]
      rw [ih rest ((a.1, a.2) :: f) fs]
      simp

theorem readGo_encodeFrame (c : AtomicConfiguration) (rest : List FileLine)
    (acc : List (List (String × Vec3))) :
    readGo (encodeFrame c ++ rest) acc = readGo rest ((frameOf c).reverse :: acc) := by
  simp only [encodeFrame, List.cons_append, readGo]
  simpa using readGo_atomLines (frameOf c) rest [] acc

theorem readGo_writeTraj (traj : List AtomicConfiguration) :
    ∀ acc, readGo (writeTraj traj) acc =
      (acc.map List.reverse).reverse ++ traj.map frameOf := by
  induction traj with
  | nil => intro acc; simp [writeTraj, readGo]
  | cons c tr ih =>
      intro acc
      have hw : writeTraj (c :: tr) = encodeFrame c ++ writeTraj tr := by
        simp [writeTraj]
      rw [hw, readGo_encodeFrame, ih]
      simp

theorem read_all_writeTraj (traj : List AtomicConfiguration) :
    read_all (writeTraj traj) = traj.map frameOf := by
  simpa [read_all] using readGo_writeTraj traj []

/-- Modelled from the spec (§6 export boundary): the xyz `write` call of the
notebook; without `append` it replaces the file with the single encoded
frame, with `append` it adds the frame at the end. -/
def write (file : List FileLine) (c : AtomicConfiguration) (append : Bool) :
    List FileLine :=
  if append then file ++ encodeFrame c else encodeFrame c

/-- Translated from the source (SampleSystem.ipynb, last code cell): the
export loop enumerates the trajectory and writes frame `i` without append
mode when `i = 0` and with append mode otherwise. -/
def exportGo : ℕ → List AtomicConfiguration → List FileLine → List FileLine
  | _, [], file => file
  | i, c :: cs, file =>
      exportGo (i + 1) cs (if i == 0 then write file c false else write file c true)

/-- Translated from the source: run the export loop over the whole
trajectory starting at index 0, on a file with arbitrary prior content. -/
def exportTraj (traj : List AtomicConfiguration) (file : List FileLine) :
    List FileLine :=
  exportGo 0 traj file

theorem exportGo_pos (cs : List AtomicConfiguration) :
    ∀ (i : ℕ) (file : List FileLine), i ≠ 0 →
      exportGo i cs file = file ++ writeTraj cs := by
  induction cs with
  | nil => intro i file _; simp [exportGo, writeTraj]
  | cons c cs ih =>
      intro i file hi
      have hbeq : (i == 0) = false := by simpa using hi
      rw [exportGo, hbeq]
      simp only [Bool.false_eq_true, if_false, write, if_pos]
      rw [ih (i + 1) (file ++ encodeFrame c) (Nat.succ_ne_zero i)]
      simp [writeTraj]

theorem exportTraj_cons (c : AtomicConfiguration) (cs : List AtomicConfiguration)
    (file : List FileLine) :
    exportTraj (c :: cs) file = writeTraj (c :: cs) := by
  rw [exportTraj, exportGo]
  simp only [beq_self_eq_true, if_pos, write, Bool.false_eq_true, if_false]
  rw [exportGo_pos cs 1 (encodeFrame c) one_ne_zero]
  simp [writeTraj]

/-- Auxiliary: when a snapshot has one species label per position, the
positions are recovered exactly from its stored frame. -/
theorem frameOf_map_snd (c : AtomicConfiguration)
    (hlen : c.species.length = c.positions.length) :
    (frameOf c).map Prod.snd = c.positions := by
  unfold frameOf
  have : ∀ (as : List String) (bs : List Vec3), as.length = bs.length →
      (as.zip bs).map Prod.snd = bs := by
    intro as
    induction as with
    | nil => intro bs h; cases bs with
        | nil => rfl
        | cons b bs => simp at h
    | cons a as ih =>
        intro bs h
        cases bs with
        | nil => simp at h
        | cons b bs =>
            simp only [List.zip_cons_cons, List.map_cons]
            rw [ih bs (by simpa using h)]
  exact this c.species c.positions hlen

/-! ## Claims -/

/-- C8: `ConstraintSet.project_forces` is idempotent: for every force array,
applying `project_forces` twice in succession yields the same result as
applying it once. -/
theorem project_forces_idempotent (fixed : List ℕ) (forces : List Vec3) :
    project_forces fixed (project_forces fixed forces) = project_forces fixed forces :=
  projectForcesAux_idem fixed 0 forces

/-- C2: every run of the Optimizer terminates in exactly one of the three
terminal states Converged, StepLimitReached, or Failed — never zero and
never more than one — and the three statuses are pairwise distinct, hence
distinguishable by the caller. -/
theorem terminal_status_trichotomy {σ : Type} (calcF : Calculator)
    (rule : StepRule σ) (thr : ℚ) (maxSteps : ℕ) (cfg : AtomicConfiguration)
    (h₀ : σ) :
    ((run calcF rule thr maxSteps cfg h₀).status = Status.converged ∨
      (run calcF rule thr maxSteps cfg h₀).status = Status.stepLimitReached ∨
      (run calcF rule thr maxSteps cfg h₀).status = Status.failed) ∧
    (Status.converged ≠ Status.stepLimitReached ∧
      Status.converged ≠ Status.failed ∧
      Status.stepLimitReached ≠ Status.failed) := by
  constructor
  · cases (run calcF rule thr maxSteps cfg h₀).status with
    | converged => exact Or.inl rfl
    | stepLimitReached => exact Or.inr (Or.inl rfl)
    | failed => exact Or.inr (Or.inr rfl)
  · refine ⟨?_, ?_, ?_⟩ <;> intro h <;> cases h

/-- C7: writing a trajectory to storage and reading it back yields the same
ordered sequence of snapshots: the same count, the same per-atom species and
positions, in the same order, with no reordering and no deduplication; for
well-formed snapshots (one species label per position) the positions are
recovered exactly. -/
theorem trajectory_round_trip (traj : List AtomicConfiguration) :
    read_all (writeTraj traj) = traj.map frameOf ∧
    (read_all (writeTraj traj)).length = traj.length ∧
    (∀ c ∈ traj, c.species.length = c.positions.length →
      (frameOf c).map Prod.snd = c.positions) := by
  refine ⟨read_all_writeTraj traj, ?_, ?_⟩
  · rw [read_all_writeTraj]; exact List.length_map traj frameOf
  · intro c _ hlen
    exact frameOf_map_snd c hlen

/-- C10, counterexample: with an empty trajectory the export loop writes
nothing, so a pre-existing file keeps its old frames — the output does not
contain "one frame per trajectory snapshot". -/
theorem xyz_export_cex :
    ¬ (read_all (exportTraj ([] : List AtomicConfiguration)
          [FileLine.header 0])).length = ([] : List AtomicConfiguration).length := by
  decide

/-- C10, amended: for every non-empty trajectory the export loop writes
exactly one frame per snapshot in trajectory order, regardless of the file's
prior content (the first frame is written without append mode, overwriting
the file), and re-running the whole export yields the same output file as
running it once; an empty trajectory leaves the file untouched. -/
theorem xyz_export_frames (traj : List AtomicConfiguration)
    (file : List FileLine) :
    (traj ≠ [] → read_all (exportTraj traj file) = traj.map frameOf) ∧
    exportTraj traj (exportTraj traj file) = exportTraj traj file := by
  cases traj with
  | nil => exact ⟨fun h => absurd rfl h, rfl⟩
  | cons c cs =>
      constructor
      · intro _
        rw [exportTraj_cons, read_all_writeTraj]
      · rw [exportTraj_cons, exportTraj_cons]

/-- C10, witness for the amended claim at a concrete non-empty trajectory
and a concrete dirty initial file. -/
theorem xyz_export_frames_w :
    read_all (exportTraj [⟨["H"], [⟨1, 2, 3⟩], (Vec3.zero, Vec3.zero, Vec3.zero),
        (false, false, false), []⟩] [FileLine.header 7]) =
      [[("H", ⟨1, 2, 3⟩)]] := by
  have h := (xyz_export_frames [⟨["H"], [⟨1, 2, 3⟩],
      (Vec3.zero, Vec3.zero, Vec3.zero), (false, false, false), []⟩]
      [FileLine.header 7]).1 (by simp)
  rw [h]
  rfl

/-- C7, witness: position recovery from the stored frame at a concrete
well-formed snapshot belonging to a concrete trajectory. -/
theorem trajectory_round_trip_w :
    (frameOf ⟨["Cu"], [⟨4, 5, 6⟩], (Vec3.zero, Vec3.zero, Vec3.zero),
        (true, true, true), [0]⟩).map Prod.snd =
      [(⟨4, 5, 6⟩ : Vec3)] :=
  (trajectory_round_trip [⟨["Cu"], [⟨4, 5, 6⟩],
      (Vec3.zero, Vec3.zero, Vec3.zero), (true, true, true), [0]⟩]).2.2
    _ (List.mem_singleton.mpr rfl) rfl

/-- C1: at each loop iteration with a successful force evaluation, the
optimizer transitions to CONVERGED — appending the current configuration to
the trajectory before exiting — exactly when the maximum Euclidean norm of
the constraint-projected per-atom force vectors is at most the (nonnegative)
threshold `fmax_threshold` (0.005 in the notebook). -/
theorem fmax_convergence_criterion {σ : Type} (calcF : Calculator)
    (rule : StepRule σ) (thr : ℚ) (hthr : 0 ≤ thr) (rem n : ℕ)
    (c : AtomicConfiguration) (h : σ) (t : List AtomicConfiguration)
    (r : ForceEnergyResult) (hc : calcF c = some r) :
    fmaxSpec (project_forces c.constraints r.forces) ≤ (thr : ℝ) ↔
      loop calcF rule thr rem n c h t = ⟨Status.converged, t ++ [c], n⟩ := by
  rw [fmaxSpec_le_iff_fmaxSq_le thr hthr]
  constructor
  · intro hle
    rw [loop, hc]
    dsimp only
    rw [if_pos hle]
  · intro heq
    by_contra hgt
    rw [loop, hc] at heq
    dsimp only at heq
    rw [if_neg hgt] at heq
    split at heq
    · simp at heq
    · split at heq
      · simp at heq
      · rename_i remA remN xO d h' hr
        have hsteps := loop_steps_ge calcF rule thr remN (n + 1)
          (applyMove c d) h' (t ++ [c])
        rw [heq] at hsteps
        simp at hsteps

/-- A calculator that always reports zero energy and an empty force list. -/
def calcEmpty : Calculator := fun _ => some ⟨0, []⟩

/-- A steepest-descent style step rule with trivial memory: move each atom
by its projected force. -/
def ruleId : StepRule Unit := fun h _ pf => some (pf, h)

/-- A configuration with no atoms and no constraints. -/
def cfgEmpty : AtomicConfiguration :=
  ⟨[], [], (Vec3.zero, Vec3.zero, Vec3.zero), (false, false, false), []⟩

/-- C1, witness: at the notebook's threshold 0.005 a zero-force iteration
converges, with the current configuration appended to the trajectory. -/
theorem fmax_convergence_criterion_w :
    loop calcEmpty ruleId (5 / 1000 : ℚ) 100 0 cfgEmpty () [] =
      ⟨Status.converged, [cfgEmpty], 0⟩ :=
  (fmax_convergence_criterion calcEmpty ruleId (5 / 1000) (by norm_num) 100 0
      cfgEmpty () [] ⟨0, []⟩ rfl).mp
    (by
      have h : project_forces cfgEmpty.constraints
          (ForceEnergyResult.forces ⟨0, []⟩) = [] := rfl
      rw [h, fmaxSpec_nil]
      norm_num)

/-- C4: a configuration in which every atom is constrained reports fmax = 0
and converges at step 0, with only the initial snapshot recorded and no
displacement step taken. -/
theorem all_constrained_converges_at_step_zero {σ : Type} (calcF : Calculator)
    (rule : StepRule σ) (thr : ℚ) (maxSteps : ℕ) (cfg : AtomicConfiguration)
    (h₀ : σ) (r : ForceEnergyResult) (hc : calcF cfg = some r)
    (hlen : r.forces.length = cfg.positions.length)
    (hall : ∀ i < cfg.positions.length, i ∈ cfg.constraints) :
    run calcF rule thr maxSteps cfg h₀ = ⟨Status.converged, [cfg], 0⟩ ∧
      fmaxSpec (project_forces cfg.constraints r.forces) = 0 := by
  have hzero : ∀ g ∈ project_forces cfg.constraints r.forces, g = Vec3.zero := by
    apply projectForcesAux_all_fixed
    intro j hj
    simpa using hall j (hlen ▸ hj)
  have hSq : fmaxSq (project_forces cfg.constraints r.forces) = 0 :=
    fmaxSq_eq_zero_of_all_zero _ hzero
  constructor
  · unfold run
    rw [loop, hc]
    dsimp only
    rw [if_pos (by rw [hSq]; exact mul_self_nonneg thr)]
    rfl
  · exact fmaxSpec_eq_zero_of_all_zero _ hzero

/-- A configuration with a single constrained atom. -/
def cfgAllFixed : AtomicConfiguration :=
  ⟨["Cu"], [⟨1, 1, 1⟩], (Vec3.zero, Vec3.zero, Vec3.zero), (true, true, true), [0]⟩

/-- A calculator that always reports a fixed nonzero force on one atom. -/
def calcConst : Calculator := fun _ => some ⟨2, [⟨3, 0, 0⟩]⟩

/-- C4, witness: one atom, constrained, nonzero raw force. -/
theorem all_constrained_converges_at_step_zero_w :
    run calcConst ruleId 0 100 cfgAllFixed () =
        ⟨Status.converged, [cfgAllFixed], 0⟩ ∧
      fmaxSpec (project_forces cfgAllFixed.constraints
          (ForceEnergyResult.forces ⟨2, [⟨3, 0, 0⟩]⟩)) = 0 :=
  all_constrained_converges_at_step_zero calcConst ruleId 0 100 cfgAllFixed ()
    ⟨2, [⟨3, 0, 0⟩]⟩ rfl rfl (by decide)

/-- C5: when the initial configuration is not converged (its fmax exceeds
the nonnegative threshold), a run with `max_steps = 0` terminates with
status StepLimitReached — not Converged and not Failed — and records a
trajectory of length exactly 1, containing only the initial snapshot. -/
theorem zero_step_budget_step_limit_reached {σ : Type} (calcF : Calculator)
    (rule : StepRule σ) (thr : ℚ) (hthr : 0 ≤ thr) (cfg : AtomicConfiguration)
    (h₀ : σ) (r : ForceEnergyResult) (hc : calcF cfg = some r)
    (hf : (thr : ℝ) < fmaxSpec (project_forces cfg.constraints r.forces)) :
    run calcF rule thr 0 cfg h₀ = ⟨Status.stepLimitReached, [cfg], 0⟩ ∧
      (run calcF rule thr 0 cfg h₀).traj.length = 1 := by
  have hgt : ¬ fmaxSq (project_forces cfg.constraints r.forces) ≤ thr * thr := by
    intro hle
    exact absurd ((fmaxSpec_le_iff_fmaxSq_le thr hthr _).mpr hle) (not_le.mpr hf)
  have hrun : run calcF rule thr 0 cfg h₀ = ⟨Status.stepLimitReached, [cfg], 0⟩ := by
    unfold run
    rw [loop, hc]
    dsimp only
    rw [if_neg hgt]
    simp
  exact ⟨hrun, by rw [hrun]; rfl⟩

/-- A configuration with a single unconstrained atom. -/
def cfgOneFree : AtomicConfiguration :=
  ⟨["H"], [Vec3.zero], (Vec3.zero, Vec3.zero, Vec3.zero), (false, false, false), []⟩

/-- A calculator that always reports a unit force on one atom. -/
def calcUnit : Calculator := fun _ => some ⟨0, [⟨1, 0, 0⟩]⟩

/-- C5, witness: one free atom under a unit force with a zero threshold and
`max_steps = 0`. -/
theorem zero_step_budget_step_limit_reached_w :
    run calcUnit ruleId 0 0 cfgOneFree () =
        ⟨Status.stepLimitReached, [cfgOneFree], 0⟩ ∧
      (run calcUnit ruleId 0 0 cfgOneFree ()).traj.length = 1 :=
  zero_step_budget_step_limit_reached calcUnit ruleId 0 le_rfl cfgOneFree ()
    ⟨0, [⟨1, 0, 0⟩]⟩ rfl
    (by
      have h : project_forces cfgOneFree.constraints
          (ForceEnergyResult.forces ⟨0, [⟨1, 0, 0⟩]⟩) = [⟨1, 0, 0⟩] := rfl
      rw [h, fmaxSpec_cons, fmaxSpec_nil]
      have hn : (Vec3.normSq ⟨1, 0, 0⟩ : ℚ) = 1 := by norm_num [Vec3.normSq]
      rw [hn]
      norm_num)

/-- C3: constrained atoms are never displaced: `project_forces` zeroes the
force components of constrained atoms, `project_displacement` keeps
constrained atoms at their previous positions, and consequently every
configuration in the trajectory of every run has the constrained atoms at
their initial positions. -/
theorem constrained_atoms_never_move {σ : Type} (calcF : Calculator)
    (rule : StepRule σ) (thr : ℚ) (maxSteps : ℕ) (cfg : AtomicConfiguration)
    (h₀ : σ) :
    (∀ (fixed : List ℕ) (forces : List Vec3), ∀ i ∈ fixed,
        (project_forces fixed forces)[i]? =
          if i < forces.length then some Vec3.zero else none) ∧
    (∀ (fixed : List ℕ) (os ps : List Vec3), ∀ i ∈ fixed,
        (project_displacement fixed os ps)[i]? = os[i]?) ∧
    (∀ s ∈ (run calcF rule thr maxSteps cfg h₀).traj,
        ∀ i ∈ cfg.constraints, s.positions[i]? = cfg.positions[i]?) := by
  refine ⟨fun fixed forces i hi => project_forces_getElem? fixed i forces hi,
    fun fixed os ps i hi => project_displacement_getElem?_fixed fixed i os ps hi, ?_⟩
  have hinv := loop_traj_inv calcF rule thr
    (fun s => s.constraints = cfg.constraints ∧
      ∀ i ∈ cfg.constraints, s.positions[i]? = cfg.positions[i]?)
    (by
      rintro c d ⟨hcon, hpos⟩
      refine ⟨(applyMove_constraints c d).trans hcon, ?_⟩
      intro i hi
      have hi' : i ∈ c.constraints := hcon ▸ hi
      exact (applyMove_positions_fixed c d i hi').trans (hpos i hi))
    maxSteps 0 cfg h₀ [] (by intro s hs; simp at hs) ⟨rfl, fun i _ => rfl⟩
  intro s hs i hi
  exact (hinv s hs).2 i hi

/-- C3, witness: a two-atom system (atom 0 constrained, atom 1 free) driven
for one step by a unit force; the constrained atom's position in the second
snapshot is still its initial one. -/
theorem constrained_atoms_never_move_w :
    (applyMove ⟨["Cu", "H"], [⟨1, 1, 1⟩, Vec3.zero],
        (Vec3.zero, Vec3.zero, Vec3.zero), (false, false, false), [0]⟩
        [⟨1, 0, 0⟩, ⟨1, 0, 0⟩]).positions[0]? = some ⟨1, 1, 1⟩ := by
  have hmem : applyMove ⟨["Cu", "H"], [⟨1, 1, 1⟩, Vec3.zero],
      (Vec3.zero, Vec3.zero, Vec3.zero), (false, false, false), [0]⟩
      [⟨1, 0, 0⟩, ⟨1, 0, 0⟩] ∈
      (run (fun _ => some ⟨0, [⟨1, 0, 0⟩, ⟨1, 0, 0⟩]⟩)
        (fun h _ _ => some ([⟨1, 0, 0⟩, ⟨1, 0, 0⟩], h)) 0 1
        ⟨["Cu", "H"], [⟨1, 1, 1⟩, Vec3.zero], (Vec3.zero, Vec3.zero, Vec3.zero),
          (false, false, false), [0]⟩ ()).traj := by
    norm_num [run, loop, project_forces, projectForcesAux, fmaxSq, Vec3.normSq,
      Vec3.zero, applyMove, project_displacement, projectDispAux, addDisp, Vec3.add]
  exact
    (constrained_atoms_never_move (fun _ => some ⟨0, [⟨1, 0, 0⟩, ⟨1, 0, 0⟩]⟩)
        (fun h _ _ => some ([⟨1, 0, 0⟩, ⟨1, 0, 0⟩], h)) 0 1
        ⟨["Cu", "H"], [⟨1, 1, 1⟩, Vec3.zero], (Vec3.zero, Vec3.zero, Vec3.zero),
          (false, false, false), [0]⟩ ()).2.2
      _ hmem 0 (List.mem_singleton.mpr rfl)

/-- C9: over the lifetime of a run the Optimizer changes only atomic
positions: every snapshot in the trajectory has the initial configuration's
species sequence (hence atom count and ordering), atom count, cell matrix,
periodicity flags, and constraint set. -/
theorem run_only_changes_positions {σ : Type} (calcF : Calculator)
    (rule : StepRule σ) (thr : ℚ) (maxSteps : ℕ) (cfg : AtomicConfiguration)
    (h₀ : σ) :
    ∀ s ∈ (run calcF rule thr maxSteps cfg h₀).traj,
      s.species = cfg.species ∧ s.positions.length = cfg.positions.length ∧
      s.cell = cfg.cell ∧ s.pbc = cfg.pbc ∧ s.constraints = cfg.constraints := by
  exact loop_traj_inv calcF rule thr
    (fun s => s.species = cfg.species ∧
      s.positions.length = cfg.positions.length ∧ s.cell = cfg.cell ∧
      s.pbc = cfg.pbc ∧ s.constraints = cfg.constraints)
    (by
      rintro c d ⟨h1, h2, h3, h4, h5⟩
      exact ⟨(applyMove_species c d).trans h1,
        (applyMove_positions_length c d).trans h2,
        (applyMove_cell c d).trans h3,
        (applyMove_pbc c d).trans h4,
        (applyMove_constraints c d).trans h5⟩)
    maxSteps 0 cfg h₀ [] (by intro s hs; simp at hs)
    ⟨rfl, rfl, rfl, rfl, rfl⟩

/-- C9, witness: the moved snapshot of a one-step run keeps the species,
atom count, cell, periodicity flags and constraints of the initial
configuration. -/
theorem run_only_changes_positions_w :
    (applyMove ⟨["Cu", "H"], [⟨1, 1, 1⟩, Vec3.zero],
        (Vec3.zero, Vec3.zero, Vec3.zero), (false, false, false), [0]⟩
        [⟨1, 0, 0⟩, ⟨1, 0, 0⟩]).species = ["Cu", "H"] ∧
    (applyMove ⟨["Cu", "H"], [⟨1, 1, 1⟩, Vec3.zero],
        (Vec3.zero, Vec3.zero, Vec3.zero), (false, false, false), [0]⟩
        [⟨1, 0, 0⟩, ⟨1, 0, 0⟩]).positions.length = 2 ∧
    (applyMove ⟨["Cu", "H"], [⟨1, 1, 1⟩, Vec3.zero],
        (Vec3.zero, Vec3.zero, Vec3.zero), (false, false, false), [0]⟩
        [⟨1, 0, 0⟩, ⟨1, 0, 0⟩]).cell = (Vec3.zero, Vec3.zero, Vec3.zero) ∧
    (applyMove ⟨["Cu", "H"], [⟨1, 1, 1⟩, Vec3.zero],
        (Vec3.zero, Vec3.zero, Vec3.zero), (false, false, false), [0]⟩
        [⟨1, 0, 0⟩, ⟨1, 0, 0⟩]).pbc = (false, false, false) ∧
    (applyMove ⟨["Cu", "H"], [⟨1, 1, 1⟩, Vec3.zero],
        (Vec3.zero, Vec3.zero, Vec3.zero), (false, false, false), [0]⟩
        [⟨1, 0, 0⟩, ⟨1, 0, 0⟩]).constraints = [0] := by
  have hmem : applyMove ⟨["Cu", "H"], [⟨1, 1, 1⟩, Vec3.zero],
      (Vec3.zero, Vec3.zero, Vec3.zero), (false, false, false), [0]⟩
      [⟨1, 0, 0⟩, ⟨1, 0, 0⟩] ∈
      (run (fun _ => some ⟨0, [⟨1, 0, 0⟩, ⟨1, 0, 0⟩]⟩)
        (fun h _ _ => some ([⟨1, 0, 0⟩, ⟨1, 0, 0⟩], h)) 0 1
        ⟨["Cu", "H"], [⟨1, 1, 1⟩, Vec3.zero], (Vec3.zero, Vec3.zero, Vec3.zero),
          (false, false, false), [0]⟩ ()).traj := by
    norm_num [run, loop, project_forces, projectForcesAux, fmaxSq, Vec3.normSq,
      Vec3.zero, applyMove, project_displacement, projectDispAux, addDisp, Vec3.add]
  exact run_only_changes_positions (fun _ => some ⟨0, [⟨1, 0, 0⟩, ⟨1, 0, 0⟩]⟩)
    (fun h _ _ => some ([⟨1, 0, 0⟩, ⟨1, 0, 0⟩], h)) 0 1
    ⟨["Cu", "H"], [⟨1, 1, 1⟩, Vec3.zero], (Vec3.zero, Vec3.zero, Vec3.zero),
      (false, false, false), [0]⟩ () _ hmem

/-- C6: if the run reaches step 3 and the Calculator there reports a
non-finite force (modelled as `none`), the Optimizer halts with status
Failed at step counter 3, taking no further steps, and the recorded
trajectory is exactly the 3 snapshots of steps 0 through 2. -/
theorem calculator_failure_at_step_three {σ : Type} (calcF : Calculator)
    (rule : StepRule σ) (thr : ℚ) (maxSteps : ℕ) (cfg : AtomicConfiguration)
    (h₀ : σ) (s : LoopState σ)
    (h3 : iter calcF rule thr 3 ⟨maxSteps, 0, cfg, h₀, []⟩ = some s)
    (hfail : calcF s.config = none) :
    run calcF rule thr maxSteps cfg h₀ = ⟨Status.failed, s.traj, 3⟩ ∧
      s.traj.length = 3 := by
  have hcnt := iter_counter calcF rule thr 3 _ s h3
  simp only [List.length_nil] at hcnt
  have hloop := iter_loopAt calcF rule thr 3 _ s h3
  have hstop : loopAt calcF rule thr s = ⟨Status.failed, s.traj, s.n⟩ := by
    unfold loopAt
    rw [loop, hfail]
  have hn : s.n = 3 := by omega
  have hrun : run calcF rule thr maxSteps cfg h₀ = loopAt calcF rule thr s := hloop
  constructor
  · rw [hrun, hstop, hn]
  · omega

/-- Initial configuration of the failing-calculator scenario: one free atom
at the origin. -/
def cfgW6 : AtomicConfiguration :=
  ⟨["H"], [⟨0, 0, 0⟩], (Vec3.zero, Vec3.zero, Vec3.zero), (false, false, false), []⟩

/-- Snapshot after one step of the failing-calculator scenario. -/
def cfgW6a : AtomicConfiguration :=
  ⟨["H"], [⟨2, 0, 0⟩], (Vec3.zero, Vec3.zero, Vec3.zero), (false, false, false), []⟩

/-- Snapshot after two steps of the failing-calculator scenario. -/
def cfgW6b : AtomicConfiguration :=
  ⟨["H"], [⟨4, 0, 0⟩], (Vec3.zero, Vec3.zero, Vec3.zero), (false, false, false), []⟩

/-- Snapshot after three steps of the failing-calculator scenario; here the
calculator fails. -/
def cfgW6c : AtomicConfiguration :=
  ⟨["H"], [⟨6, 0, 0⟩], (Vec3.zero, Vec3.zero, Vec3.zero), (false, false, false), []⟩

/-- A calculator that reports a constant force of magnitude 2 until the atom
reaches x = 6 (the configuration of step 3), where it fails. -/
def calcW6 : Calculator := fun c =>
  if c.positions = [(⟨6, 0, 0⟩ : Vec3)] then none else some ⟨0, [⟨2, 0, 0⟩]⟩

/-- C6, witness: with `calcW6` the run takes steps 0, 1, 2 and fails at
step 3, keeping exactly the three earlier snapshots. -/
theorem calculator_failure_at_step_three_w :
    run calcW6 ruleId 1 100 cfgW6 () =
        ⟨Status.failed, [cfgW6, cfgW6a, cfgW6b], 3⟩ ∧
      ([cfgW6, cfgW6a, cfgW6b] : List AtomicConfiguration).length = 3 :=
  calculator_failure_at_step_three calcW6 ruleId 1 100 cfgW6 ()
    ⟨97, 3, cfgW6c, (), [cfgW6, cfgW6a, cfgW6b]⟩
    (by
      norm_num [iter, next?, calcW6, ruleId, cfgW6, cfgW6a, cfgW6b, cfgW6c,
        applyMove, project_forces, projectForcesAux, project_displacement,
        projectDispAux, addDisp, Vec3.add, fmaxSq, Vec3.normSq])
    (by norm_num [calcW6, cfgW6c])

end MolOnSurf
